import Mathlib

/-!
# Verification of the table-extraction core of `log_parser.py`

This file gives a shallow embedding, in Lean 4, of the table-extraction core
of `log_parser.py` (a parser for `unicycler.log` assembly logs), and proves or
refutes the frozen specification claims about it.

Modelling conventions:

* A Python string is a `List Char` (`PyStr` below); a line source (a file
  opened for reading, iterated line by line) is a `List PyStr`, one per line,
  each normally ending in a newline character (the last line of a file may
  lack it, exactly as in Python file iteration).
* Fallible code is `Option`-valued: `none` models a raised exception
  (`IndexError`, `UnboundLocalError`, `NameError`), which aborts the program.
* A Python `dict` is an association list with Python's insertion semantics:
  inserting an existing key overwrites the value in place (keeping the
  original position), a fresh key is appended at the end (`dictInsert`).
* Regular-expression operations of the source are embedded as the
  corresponding total scanning functions on `List Char`
  (`collapseWS` for `re.sub('\s+', '\t', _)`, `substNoneFound` for
  `re.sub('none found', 'none_found', _)`, `subUnderscore` for
  `re.sub(r'([^\s])(\s)([^\s])', r'\1_\3', _)`, `findSub`/`hasSub` for
  `re.search` of plain substrings).
-/

/-- Python strings are modelled as lists of characters. -/
abbrev PyStr := List Char

/-- The whitespace class of Python's `\s` (ASCII part) and of `str.strip`. -/
def isSpace (c : Char) : Bool :=
  c = ' ' || c = '\t' || c = '\n' || c = '\r' || c = Char.ofNat 11 || c = Char.ofNat 12

/-- `str.strip()`: remove leading and trailing whitespace. -/
def pyStrip (l : List Char) : List Char :=
  ((l.dropWhile isSpace).reverse.dropWhile isSpace).reverse

/-- `re.sub('\s+', '\t', _)`: collapse every maximal run of whitespace into a
single tab character. -/
def collapseWS : List Char → List Char
  | [] => []
  | [c] => if isSpace c then ['\t'] else [c]
  | c :: d :: rest =>
    if isSpace c then
      if isSpace d then collapseWS (d :: rest)
      else '\t' :: collapseWS (d :: rest)
    else c :: collapseWS (d :: rest)

/-- `str.split(sep)` for a one-character separator `sep`. -/
def splitOnChar (sep : Char) : List Char → List (List Char)
  | [] => [[]]
  | c :: cs =>
    if c = sep then [] :: splitOnChar sep cs
    else
      match splitOnChar sep cs with
      | [] => [[c]]
      | t :: ts => (c :: t) :: ts

/-- `re.sub('\s+', '\t', row.strip()).split('\t')`: the line tokenization used
by `extractor` (after the phrase substitution) and by `extract_best_k_mer`. -/
def tokenizeLine (row : List Char) : List (List Char) :=
  splitOnChar '\t' (collapseWS (pyStrip row))

/-- Plain substring containment, as used by Python's `in` operator and by
`re.search` with a literal, anchor-free pattern. -/
def hasSub (pat : List Char) : List Char → Bool
  | [] => pat.isEmpty
  | c :: rest => pat.isPrefixOf (c :: rest) || hasSub pat rest

/-- Remainder of the text after the first occurrence of a literal substring
(`none` if the substring does not occur). -/
def findSub (pat : List Char) : List Char → Option (List Char)
  | [] => if pat.isEmpty then some [] else none
  | c :: rest =>
    if pat.isPrefixOf (c :: rest) then some ((c :: rest).drop pat.length)
    else findSub pat rest

/-- `re.sub('none found', 'none_found', _)`: replace every (leftmost,
non-overlapping) occurrence of the phrase by the underscored token. -/
def substNoneFound : List Char → List Char
  | 'n' :: 'o' :: 'n' :: 'e' :: ' ' :: 'f' :: 'o' :: 'u' :: 'n' :: 'd' :: rest =>
    'n' :: 'o' :: 'n' :: 'e' :: '_' :: 'f' :: 'o' :: 'u' :: 'n' :: 'd' :: substNoneFound rest
  | c :: rest => c :: substNoneFound rest
  | [] => []

/-- The phrase `none found` searched for by `extractor`. -/
def noneFoundPat : List Char := ("none found").toList

/-- Lines 180–181 of the source: `if 'none found' in row: row = re.sub(...)`. -/
def normalized_row (row : List Char) : List Char :=
  if hasSub noneFoundPat row then substNoneFound row else row

/-- `str.isnumeric()` restricted to the ASCII alphabet of the log files:
true iff the string is nonempty and consists of decimal digits only.
(Python additionally accepts non-ASCII Unicode numerals, which do not occur
in `unicycler.log` files; a comma is not numeric either way.) -/
def isnumeric (s : List Char) : Bool :=
  !s.isEmpty && s.all Char.isDigit

/-- `re.sub(r'([^\s])(\s)([^\s])', r'\1_\3', _)`: replace every leftmost,
non-overlapping occurrence of a single whitespace character flanked by
non-whitespace characters with an underscore (scanning resumes after the
matched three characters). -/
def subUnderscore : List Char → List Char
  | a :: s :: b :: rest =>
    if !isSpace a && isSpace s && !isSpace b then
      a :: '_' :: b :: subUnderscore rest
    else a :: subUnderscore (s :: b :: rest)
  | a :: rest => a :: subUnderscore rest
  | [] => []

/-- The tokenization used by `extract_alignment_summary` (lines 429–433):
underscore single interior spaces, collapse whitespace runs to tabs
(without stripping!), split on tabs. -/
def alignTokens (line : List Char) : List (List Char) :=
  splitOnChar '\t' (collapseWS (subUnderscore line))

/-- The blank-line table sentinel: a line that is exactly `'\n'`. -/
def newline : List Char := ['\n']

/-! ## Python dictionaries as association lists -/

/-- Python `dict` insertion (`d[k] = v`): overwrite the value at an existing
key in place, append a fresh key at the end. -/
def dictInsert {α β : Type} [DecidableEq α] (k : α) (v : β) : List (α × β) → List (α × β)
  | [] => [(k, v)]
  | (k1, v1) :: d => if k1 = k then (k1, v) :: d else (k1, v1) :: dictInsert k v d

/-- Python `dict` lookup: value at this key, if present.  (Keys of a dict
built by `dictInsert` are unique, so the first hit is the only one.) -/
def dictFind? {α β : Type} [DecidableEq α] : List (α × β) → α → Option β
  | [], _ => none
  | (k1, v) :: d, k => if k1 = k then some v else dictFind? d k

/-- `dict(pairs)`: build a dict from a pair list, later duplicates
overwriting earlier values. -/
def dictOfPairs {α β : Type} [DecidableEq α] (ps : List (α × β)) : List (α × β) :=
  ps.foldl (fun d p => dictInsert p.1 p.2 d) []

/-- `itertools.zip_longest(as, bs)` with the default `None` fill value. -/
def zipLongest {α β : Type} : List α → List β → List (Option α × Option β)
  | [], bs => bs.map (fun b => (none, some b))
  | a :: as0, [] => ((some a, none)) :: zipLongest as0 []
  | a :: as0, b :: bs => ((some a, some b)) :: zipLongest as0 bs

/-!
## Table data model

A `TableRow` is the Python dict built by `dict(zip_longest(headers, line_list))`:
its keys are `Option PyStr` (`none` is the `None` key that appears when the
row has more fields than headers), its values are `Option PyStr` (`none` is
the `None` fill for missing trailing fields).

A `Table` is the outer dict built by `extractor`: keyed by the row's
`'Length'` value (which is `none` when the row has no `Length` field).
-/

abbrev TableRow := List (Option PyStr × Option PyStr)

abbrev Table := List (Option PyStr × TableRow)

instance : DecidableEq TableRow := instDecidableEqList

instance : DecidableEq Table := instDecidableEqList

/-- `row.get(k)` on a `TableRow`: Python's `dict.get` returns `None` both for
an absent key and for a stored `None` value; `Option.join` performs exactly
this flattening. -/
def pyGet (r : TableRow) (k : Option PyStr) : Option PyStr :=
  (dictFind? r k).join

/-- `table.get(key)` for a key known to be in the table (the `[]` default is
never reached when `k` is one of the table's keys, which is the only way the
source uses it). -/
def tGet (t : Table) (k : Option PyStr) : TableRow :=
  (dictFind? t k).getD []

/-- `key in table` (dict membership). -/
def tMem (t : Table) (k : Option PyStr) : Bool :=
  (dictFind? t k).isSome

/-- The dict `dict(zip_longest(headers, line_list))` of line 196. -/
def rowRecord (headers : List PyStr) (line_list : List PyStr) : TableRow :=
  dictOfPairs (zipLongest headers line_list)

/-- The `'Length'` key used to key the outer table (line 200). -/
def keyLength : Option PyStr := some (("Length").toList)

/-!
## `extractor` (lines 142–202)

`extractor_rows` models the first loop (lines 171–196), producing the
`extracted_table` list of row dicts; `extractor` adds the second loop
(lines 198–200), folding the rows into the Length-keyed dict.  The value
`none` models an uncaught `IndexError` from `line_list[0]` — the branch is
provably unreachable (claim C9) because a `str.split` result is never empty.
-/

def extractor_rows (headers : List PyStr) : List PyStr → Option (List TableRow)
  | [] => some []
  | row :: rest =>
    if row = newline then some []
    else
      match tokenizeLine (normalized_row row) with
      | [] => none
      | t :: ts =>
        if isnumeric t then
          (extractor_rows headers rest).map (fun l => rowRecord headers (t :: ts) :: l)
        else extractor_rows headers rest

def extractor (headers : List PyStr) (table : List PyStr) : Option Table :=
  (extractor_rows headers table).map
    (fun rows => rows.foldl (fun final r => dictInsert (pyGet r keyLength) r final) [])

/-- First column of a row as tested by line 186 (`line_list[0]`); the
tokenization of a row is provably never empty, so `headD` is exact. -/
def first_column (row : PyStr) : PyStr :=
  (tokenizeLine (normalized_row row)).headD []

/-!
## `concatenate_molecules_summary` (lines 204–286)

The source iterates `for key in status`, builds the dict `relevant` (one of
two 14-field literals, depending on `key in depth`), and appends it to the
CSV file.  We model the emitted record stream as a list of `MoleculeRecord`s.
-/

/-- One row of `molecules_summary.csv` (14 fields; all but the folder name
are `dict.get` results and hence nullable). -/
structure MoleculeRecord where
  folder_name : PyStr
  component : Option PyStr
  segments : Option PyStr
  links : Option PyStr
  length : Option PyStr
  n50 : Option PyStr
  longest_segment : Option PyStr
  status : Option PyStr
  depth : Option PyStr
  starting_gene : Option PyStr
  position : Option PyStr
  strand : Option PyStr
  identity : Option PyStr
  coverage : Option PyStr
  deriving DecidableEq, Repr

def keyComponent : Option PyStr := some (("Component").toList)

def keySegments : Option PyStr := some (("Segments").toList)

def keyLinks : Option PyStr := some (("Links").toList)

def keyN50 : Option PyStr := some (("N50").toList)

def keyLongestSegment : Option PyStr := some (("Longest_segment").toList)

def keyStatus : Option PyStr := some (("Status").toList)

def keyDepth : Option PyStr := some (("Depth").toList)

def keyStartingGene : Option PyStr := some (("Starting_gene").toList)

def keyPosition : Option PyStr := some (("Position").toList)

def keyStrand : Option PyStr := some (("Strand").toList)

def keyIdentity : Option PyStr := some (("Identity").toList)

def keyCoverage : Option PyStr := some (("Coverage").toList)

/-- The `relevant` dict built in the loop body (lines 251–282): the
`key in depth` branch copies the six depth-sourced fields from the depth
table, the other branch sets them all to `None`. -/
def relevant (status depth : Table) (input_folder_name : PyStr) (key : Option PyStr) :
    MoleculeRecord :=
  if tMem depth key then
    { folder_name := input_folder_name
      component := pyGet (tGet status key) keyComponent
      segments := pyGet (tGet status key) keySegments
      links := pyGet (tGet status key) keyLinks
      length := pyGet (tGet status key) keyLength
      n50 := pyGet (tGet status key) keyN50
      longest_segment := pyGet (tGet status key) keyLongestSegment
      status := pyGet (tGet status key) keyStatus
      depth := pyGet (tGet depth key) keyDepth
      starting_gene := pyGet (tGet depth key) keyStartingGene
      position := pyGet (tGet depth key) keyPosition
      strand := pyGet (tGet depth key) keyStrand
      identity := pyGet (tGet depth key) keyIdentity
      coverage := pyGet (tGet depth key) keyCoverage }
  else
    { folder_name := input_folder_name
      component := pyGet (tGet status key) keyComponent
      segments := pyGet (tGet status key) keySegments
      links := pyGet (tGet status key) keyLinks
      length := pyGet (tGet status key) keyLength
      n50 := pyGet (tGet status key) keyN50
      longest_segment := pyGet (tGet status key) keyLongestSegment
      status := pyGet (tGet status key) keyStatus
      depth := none
      starting_gene := none
      position := none
      strand := none
      identity := none
      coverage := none }

/-- The `for key in status` loop (lines 239–284), one emitted record per
iteration. -/
def molecule_rows (status depth : Table) (input_folder_name : PyStr) :
    List (Option PyStr) → List MoleculeRecord
  | [] => []
  | key :: keys =>
    relevant status depth input_folder_name key ::
      molecule_rows status depth input_folder_name keys

/-- The record stream appended to `molecules_summary.csv` by
`concatenate_molecules_summary`. -/
def concatenate_molecules_summary (status depth : Table) (input_folder_name : PyStr) :
    List MoleculeRecord :=
  molecule_rows status depth input_folder_name (status.map Prod.fst)

/-!
## `extract_best_k_mer` (lines 375–399) and `extract_alignment_summary` (401–438)

Both functions consume lines from the shared file iterator, so they are
modelled as returning the extracted value *and* the remaining lines.
`extract_best_k_mer` returns `none` when no line contains `best`: the local
variable `best` is then never assigned and `return best` raises
`UnboundLocalError`.  `extract_alignment_summary` returns `none` when
`alignment_summary[1]` raises `IndexError` (a processed line with fewer
than two tab-separated parts, possible only for a line with no trailing
newline).
-/

def bestPat : List Char := ("best").toList

def dashPat : List Char := ("--").toList

def extract_best_k_mer : List PyStr → Option (List PyStr × List PyStr)
  | [] => none
  | best_line :: rest =>
    if hasSub bestPat best_line then some (tokenizeLine best_line, rest)
    else extract_best_k_mer rest

def extract_alignment_summary : List PyStr → Option (List PyStr × List PyStr)
  | [] => some ([], [])
  | line :: rest =>
    if line = newline then some ([], rest)
    else if hasSub dashPat line then extract_alignment_summary rest
    else
      match (alignTokens line).get? 1 with
      | none => none
      | some v =>
        match extract_alignment_summary rest with
        | none => none
        | some (vs, r) => some (v :: vs, r)

/-!
## `assemblies_summary` (lines 440–546)

The per-run loop (lines 528–537) walks the file once; the two `if`
statements dispatch to the extractors above, which advance the *same* file
iterator.  We model the walk as a line-at-a-time state machine: the state
records which extractor currently owns the iterator
(`seekBest`/`inAlign`, with `seekBest`'s flag remembering that the header
line also matched the alignment pattern, so the second `if` of the same
iteration still fires after `extract_best_k_mer` returns).  The lemmas
`assemblies_scan_seekBest` and `assemblies_scan_inAlign` below prove the
machine equal to the direct composition with the consuming extractors.

Crucial detail of the source, line 536: `alignment_summary_list` is
assigned *only* when an alignment header is seen; it is **not** reset
between runs of the `for address` loop, so its value (or unboundness)
leaks from one run to the next.  The `Option (List PyStr)` threaded through
`assemblies_run`/`assemblies_summary_from` models exactly this variable
(`none` = not yet bound anywhere in the process; using it then raises
`NameError`).
-/

def kmerPat : List Char := ("K-mer").toList

def contigsPat : List Char := ("Contigs").toList

def deadEndsPat : List Char := ("Dead ends").toList

def scorePat : List Char := ("Score").toList

def alignHeaderPat : List Char := ("Read alignment summary").toList

/-- `re.search('^K-mer.*Contigs.*Dead ends.*Score', line)`: anchored at the
start, with `.` not crossing a newline, so the whole match lies before the
first `'\n'` of the line. -/
def isKmerHeader (line : PyStr) : Bool :=
  let seg := line.takeWhile (fun c => !(c = '\n'))
  kmerPat.isPrefixOf seg &&
    match findSub contigsPat (seg.drop kmerPat.length) with
    | none => false
    | some r1 =>
      match findSub deadEndsPat r1 with
      | none => false
      | some r2 => (findSub scorePat r2).isSome

/-- `re.search('Read alignment summary', line)`: unanchored literal. -/
def isAlignHeader (line : PyStr) : Bool :=
  hasSub alignHeaderPat line

/-- Which piece of code currently owns the shared line iterator. -/
inductive ScanState where
  | scanning : ScanState
  | seekBest (alsoAlign : Bool) : ScanState
  | inAlign (acc : List PyStr) : ScanState
  deriving DecidableEq, Repr

/-- The per-run `for line in log_file` loop of `assemblies_summary`
(lines 528–537), as a state machine over the remaining lines.  Arguments:
remaining lines, iterator owner, current `best`, current
`alignment_summary_list` (`none` = unbound).  Result: `none` models an
uncaught exception; otherwise the final `(best, alignment_summary_list)`. -/
def assemblies_scan : List PyStr → ScanState → List PyStr → Option (List PyStr) →
    Option (List PyStr × Option (List PyStr))
  | [], .scanning, best, als => some (best, als)
  | [], .seekBest _, _, _ => none
  | [], .inAlign acc, best, _ => some (best, some acc)
  | line :: rest, .scanning, best, als =>
    if isKmerHeader line then
      assemblies_scan rest (.seekBest (isAlignHeader line)) best als
    else if isAlignHeader line then
      assemblies_scan rest (.inAlign []) best als
    else assemblies_scan rest .scanning best als
  | line :: rest, .seekBest alsoAlign, best, als =>
    if hasSub bestPat line then
      if alsoAlign then assemblies_scan rest (.inAlign []) (tokenizeLine line) als
      else assemblies_scan rest .scanning (tokenizeLine line) als
    else assemblies_scan rest (.seekBest alsoAlign) best als
  | line :: rest, .inAlign acc, best, als =>
    if line = newline then assemblies_scan rest .scanning best (some acc)
    else if hasSub dashPat line then assemblies_scan rest (.inAlign acc) best als
    else
      match (alignTokens line).get? 1 with
      | none => none
      | some v => assemblies_scan rest (.inAlign (acc ++ [v])) best als

/-- One row of `assemblies_summary.csv` (11 fields). -/
structure AssemblyRecord where
  folder_name : PyStr
  k_mer_best : PyStr
  contigs_best : PyStr
  dead_ends_best : PyStr
  score_best : PyStr
  total_read_count : PyStr
  fully_aligned_reads : PyStr
  partially_aligned_reads : PyStr
  unaligned_reads : PyStr
  total_bases_aligned : PyStr
  mean_alignment_identity : PyStr
  deriving DecidableEq, Repr

/-- `concatenate_assemblies_summary` (lines 440–478): builds the `relevant`
row from `best[0..3]` and `alignment_summary_list[0..5]`; any of those ten
subscripts can raise `IndexError` (modelled by `none`). -/
def concatenate_assemblies_summary (best alignment_summary_list : List PyStr)
    (input_folder_name : PyStr) : Option AssemblyRecord :=
  match best.get? 0, best.get? 1, best.get? 2, best.get? 3,
      alignment_summary_list.get? 0, alignment_summary_list.get? 1,
      alignment_summary_list.get? 2, alignment_summary_list.get? 3,
      alignment_summary_list.get? 4, alignment_summary_list.get? 5 with
  | some b0, some b1, some b2, some b3, some a0, some a1, some a2, some a3, some a4, some a5 =>
    some
      { folder_name := input_folder_name
        k_mer_best := b0
        contigs_best := b1
        dead_ends_best := b2
        score_best := b3
        total_read_count := a0
        fully_aligned_reads := a1
        partially_aligned_reads := a2
        unaligned_reads := a3
        total_bases_aligned := a4
        mean_alignment_identity := a5 }
  | _, _, _, _, _, _, _, _, _, _ => none

/-- One iteration of the `for address` loop (lines 518–544): scan the log
(`best` freshly initialised to `[]`, `alignment_summary_list` inherited),
then skip the run if `best` is empty, else write a row (raising `NameError`
if `alignment_summary_list` is still unbound).  Returns the updated
`alignment_summary_list` and the row appended for this run (if any). -/
def assemblies_run (als : Option (List PyStr)) (folder_name : PyStr)
    (log_lines : List PyStr) : Option (Option (List PyStr) × Option AssemblyRecord) :=
  match assemblies_scan log_lines .scanning [] als with
  | none => none
  | some (best, als1) =>
    if best.isEmpty then some (als1, none)
    else
      match als1 with
      | none => none
      | some vals =>
        match concatenate_assemblies_summary best vals folder_name with
        | none => none
        | some r => some (als1, some r)

/-- The `for address` loop from a given `alignment_summary_list` state:
per-run record slots, in run order (`none` = run contributed no row). -/
def assemblies_summary_from (als : Option (List PyStr)) :
    List (PyStr × List PyStr) → Option (List (Option AssemblyRecord))
  | [] => some []
  | (folder_name, log_lines) :: rest =>
    match assemblies_run als folder_name log_lines with
    | none => none
    | some (als1, orec) => (assemblies_summary_from als1 rest).map (fun t => orec :: t)

/-- `assemblies_summary` over a list of (folder name, log lines) runs:
`alignment_summary_list` starts unbound.  The rows appended to
`assemblies_summary.csv` are the `some` slots, in order. -/
def assemblies_summary (runs : List (PyStr × List PyStr)) :
    Option (List (Option AssemblyRecord)) :=
  assemblies_summary_from none runs

section SanityChecks

example : tokenizeLine (("  1   5,179,485  complete \n").toList) =
    [("1").toList, ("5,179,485").toList, ("complete").toList] := by decide

example : tokenizeLine [] = [[]] := by decide

example : isnumeric (("1,234").toList) = false := by decide

example : isnumeric (("1234").toList) = true := by decide

example : substNoneFound (("x none found y").toList) = ("x none_found y").toList := by decide

example : subUnderscore (("Total read count:   4,009\n").toList) =
    ("Total_read_count:   4,009\n").toList := by decide

example : alignTokens (("Total read count:   4,009\n").toList) =
    [("Total_read_count:").toList, ("4,009").toList, []] := by decide

example : hasSub (("best").toList) (("127  25  5  best\n").toList) = true := by decide

example :
    extractor [("Component").toList, ("Length").toList]
      [("1  5,179\n").toList, ("x  9\n").toList, ("2  44\n").toList, newline,
       ("3  77\n").toList] =
    some
      [(some (("5,179").toList),
        [(some (("Component").toList), some (("1").toList)),
         (some (("Length").toList), some (("5,179").toList))]),
       (some (("44").toList),
        [(some (("Component").toList), some (("2").toList)),
         (some (("Length").toList), some (("44").toList))])] := by decide

end SanityChecks


/-! ## Basic facts about the tokenizers -/

/-- `str.split` never returns an empty list (`''.split('\t') == ['']`). -/
theorem splitOnChar_ne_nil (sep : Char) (l : List Char) : splitOnChar sep l ≠ [] := by
  cases l with
  | nil => simp [splitOnChar]
  | cons c cs =>
    simp only [splitOnChar]
    split
    · simp
    · split <;> simp

/-- Hence a tokenized row always has a first element: `line_list[0]` cannot
raise. -/
theorem tokenizeLine_ne_nil (row : List Char) : tokenizeLine row ≠ [] :=
  splitOnChar_ne_nil '\t' (collapseWS (pyStrip row))

/-! ## Facts about the dict model -/

theorem dictFind?_dictInsert {α β : Type} [DecidableEq α] (k q : α) (v : β)
    (d : List (α × β)) :
    dictFind? (dictInsert k v d) q = if q = k then some v else dictFind? d q := by
  induction d with
  | nil =>
    simp only [dictInsert, dictFind?]
    by_cases h : k = q
    · subst h; simp
    · rw [if_neg h, if_neg fun h2 => h h2.symm]
  | cons p d ih =>
    obtain ⟨k2, v2⟩ := p
    by_cases h2 : k2 = k
    · subst h2
      simp only [dictInsert, if_pos rfl, dictFind?]
      by_cases h : k2 = q
      · subst h; simp
      · rw [if_neg h, if_neg fun h3 => h h3.symm, if_neg h]
    · simp only [dictInsert, if_neg h2, dictFind?, ih]
      by_cases h : k2 = q <;> by_cases hqk : q = k <;> simp_all

/-- Keys of a dict after insertion: unchanged if the key was present,
appended otherwise. -/
theorem keys_dictInsert {α β : Type} [DecidableEq α] (k : α) (v : β) (d : List (α × β)) :
    (dictInsert k v d).map Prod.fst =
      if (dictFind? d k).isSome then d.map Prod.fst else d.map Prod.fst ++ [k] := by
  induction d with
  | nil => simp [dictInsert, dictFind?]
  | cons p d ih =>
    obtain ⟨k2, v2⟩ := p
    by_cases h2 : k2 = k
    · subst h2
      simp [dictInsert, dictFind?]
    · simp only [dictInsert, if_neg h2, dictFind?, List.map_cons, ih]
      split <;> simp

theorem dictFind?_eq_none_iff {α β : Type} [DecidableEq α] (d : List (α × β)) (k : α) :
    dictFind? d k = none ↔ k ∉ d.map Prod.fst := by
  induction d with
  | nil => simp [dictFind?]
  | cons p d ih =>
    obtain ⟨k2, v2⟩ := p
    simp only [dictFind?, List.map_cons, List.mem_cons]
    by_cases h : k2 = k
    · subst h; simp
    · rw [if_neg h, ih]
      constructor
      · intro hm hor
        rcases hor with h1 | h1
        · exact h h1.symm
        · exact hm h1
      · intro hnor hm
        exact hnor (Or.inr hm)

theorem nodupKeys_dictInsert {α β : Type} [DecidableEq α] (k : α) (v : β)
    (d : List (α × β)) (hd : (d.map Prod.fst).Nodup) :
    ((dictInsert k v d).map Prod.fst).Nodup := by
  rw [keys_dictInsert]
  split
  · exact hd
  · next h =>
    have hk : k ∉ d.map Prod.fst := by
      rw [← dictFind?_eq_none_iff]
      cases h2 : dictFind? d k
      · rfl
      · simp [h2] at h
    simp [List.nodup_append, hd, hk]

theorem nodupKeys_foldl_dictInsert {α β γ : Type} [DecidableEq α] (key : γ → α)
    (val : γ → β) :
    ∀ (rows : List γ) (init : List (α × β)), (init.map Prod.fst).Nodup →
      ((rows.foldl (fun d r => dictInsert (key r) (val r) d) init).map Prod.fst).Nodup := by
  intro rows
  induction rows with
  | nil => intro init h; exact h
  | cons r rows ih =>
    intro init h
    exact ih (dictInsert (key r) (val r) init) (nodupKeys_dictInsert (key r) (val r) init h)

/-- Last-write-wins characterisation of the Length-keyed fold: the value
stored at a key is the last inserted row with that key. -/
theorem dictFind?_foldl_dictInsert {α β γ : Type} [DecidableEq α] (key : γ → α)
    (val : γ → β) (rows : List γ) (init : List (α × β)) (q : α) :
    dictFind? (rows.foldl (fun d r => dictInsert (key r) (val r) d) init) q =
      match (rows.filter (fun r => decide (key r = q))).getLast? with
      | some r => some (val r)
      | none => dictFind? init q := by
  induction rows using List.reverseRecOn with
  | nil => simp
  | append_singleton rows r ih =>
    rw [List.foldl_append]
    simp only [List.foldl_cons, List.foldl_nil, dictFind?_dictInsert]
    rw [List.filter_append]
    by_cases h : key r = q
    · simp [h, List.getLast?_concat]
    · have h2 : ¬ q = key r := fun h3 => h h3.symm
      simp [h, h2, ih]

/-! ## Claims C3 and C4: the Status/Depth key merge -/

theorem molecule_rows_eq_map (status depth : Table) (f : PyStr)
    (keys : List (Option PyStr)) :
    molecule_rows status depth f keys = keys.map (relevant status depth f) := by
  induction keys with
  | nil => rfl
  | cons k keys ih => simp [molecule_rows, ih]

/-- C3: for every Status table and every Depth table (including an empty
Depth table), the merge emits exactly one merged record per key of the
Status table, in Status's own key order (the output is the map of the
per-key record builder `relevant` over Status's key list, so keys present
only in Depth are never emitted), and the number of rows written equals the
Status table's row count. -/
theorem c3_merge_row_universe (status depth : Table) (input_folder_name : PyStr) :
    concatenate_molecules_summary status depth input_folder_name =
      (status.map Prod.fst).map (relevant status depth input_folder_name) ∧
    (concatenate_molecules_summary status depth input_folder_name).length =
      status.length := by
  constructor
  · exact molecule_rows_eq_map status depth input_folder_name (status.map Prod.fst)
  · rw [concatenate_molecules_summary,
      molecule_rows_eq_map status depth input_folder_name (status.map Prod.fst)]
    simp

/-- C4: for every key of the Status table, the emitted merged record for
that key has its six depth-sourced fields equal, verbatim, to the Depth
table's corresponding field lookups when the key is present in Depth, and
all six fields null together when it is absent. -/
theorem c4_depth_fields (status depth : Table) (input_folder_name : PyStr)
    (key : Option PyStr) (hmem : key ∈ status.map Prod.fst) :
    relevant status depth input_folder_name key ∈
      concatenate_molecules_summary status depth input_folder_name ∧
    (tMem depth key = true →
      (relevant status depth input_folder_name key).depth =
        pyGet (tGet depth key) keyDepth ∧
      (relevant status depth input_folder_name key).starting_gene =
        pyGet (tGet depth key) keyStartingGene ∧
      (relevant status depth input_folder_name key).position =
        pyGet (tGet depth key) keyPosition ∧
      (relevant status depth input_folder_name key).strand =
        pyGet (tGet depth key) keyStrand ∧
      (relevant status depth input_folder_name key).identity =
        pyGet (tGet depth key) keyIdentity ∧
      (relevant status depth input_folder_name key).coverage =
        pyGet (tGet depth key) keyCoverage) ∧
    (tMem depth key = false →
      (relevant status depth input_folder_name key).depth = none ∧
      (relevant status depth input_folder_name key).starting_gene = none ∧
      (relevant status depth input_folder_name key).position = none ∧
      (relevant status depth input_folder_name key).strand = none ∧
      (relevant status depth input_folder_name key).identity = none ∧
      (relevant status depth input_folder_name key).coverage = none) := by
  refine ⟨?_, ?_, ?_⟩
  · rw [concatenate_molecules_summary, molecule_rows_eq_map]
    exact List.mem_map_of_mem (relevant status depth input_folder_name) hmem
  · intro h
    simp [relevant, h]
  · intro h
    simp [relevant, h]

def key1W : Option PyStr := some (("5,179").toList)

def key2W : Option PyStr := some (("77").toList)

def stW : Table := [(key1W, []), (key2W, [])]

def dpW : Table :=
  [(key1W, [(some (("Depth").toList), some (("12.5x").toList)),
            (some (("Strand").toList), some (("+").toList))])]

theorem c4_depth_fields_witness :
    (relevant stW dpW (("SW0001").toList) key1W).depth = some (("12.5x").toList) ∧
    (relevant stW dpW (("SW0001").toList) key2W).depth = none := by
  have h1 := c4_depth_fields stW dpW (("SW0001").toList) key1W (by decide)
  have h2 := c4_depth_fields stW dpW (("SW0001").toList) key2W (by decide)
  exact ⟨((h1.2.1 (by decide)).1).trans (by decide), (h2.2.2 (by decide)).1⟩

/-! ## Claim C9: the extractor is total and drops malformed rows silently -/

theorem extractor_rows_isSome (headers : List PyStr) :
    ∀ lines, (extractor_rows headers lines).isSome = true := by
  intro lines
  induction lines with
  | nil => rfl
  | cons row rest ih =>
    simp only [extractor_rows]
    split
    · rfl
    · cases h : tokenizeLine (normalized_row row) with
      | nil => exact absurd h (tokenizeLine_ne_nil _)
      | cons t ts =>
        simp only [h]
        split
        · obtain ⟨l, hl⟩ := Option.isSome_iff_exists.mp ih
          rw [hl]
          rfl
        · exact ih

theorem extractor_rows_drop (headers : List PyStr) (bad : PyStr) (hbad : bad ≠ newline)
    (hnum : isnumeric (first_column bad) = false) :
    ∀ pre post,
      extractor_rows headers (pre ++ bad :: post) = extractor_rows headers (pre ++ post) := by
  intro pre
  induction pre with
  | nil =>
    intro post
    simp only [List.nil_append, extractor_rows, if_neg hbad]
    cases h : tokenizeLine (normalized_row bad) with
    | nil => exact absurd h (tokenizeLine_ne_nil _)
    | cons t ts =>
      have ht : isnumeric t = false := by
        have h2 := hnum
        rw [first_column, h] at h2
        exact h2
      simp [h, ht]
  | cons row pre ih =>
    intro post
    simp only [List.cons_append, extractor_rows]
    split
    · rfl
    · cases h : tokenizeLine (normalized_row row) with
      | nil => exact absurd h (tokenizeLine_ne_nil _)
      | cons t ts =>
        simp only [h]
        split
        · exact congrArg _ (ih post)
        · exact ih post

/-- C9: for every headers list and every finite sequence of input lines, the
extractor returns a table without raising (in the model: never `none`, the
`IndexError` branch being unreachable), and malformed rows — any non-sentinel
row whose first token is not numeric, which covers empty lines,
whitespace-only lines and rows with a non-numeric first token — are dropped
silently: removing such a row from the input leaves the result unchanged. -/
theorem c9_extractor_total_silent :
    (∀ (headers : List PyStr) (lines : List PyStr),
      (extractor headers lines).isSome = true) ∧
    (∀ (headers : List PyStr) (pre post : List PyStr) (bad : PyStr),
      bad ≠ newline → isnumeric (first_column bad) = false →
      extractor headers (pre ++ bad :: post) = extractor headers (pre ++ post)) := by
  constructor
  · intro headers lines
    rw [extractor]
    obtain ⟨l, hl⟩ := Option.isSome_iff_exists.mp (extractor_rows_isSome headers lines)
    rw [hl]
    rfl
  · intro headers pre post bad h1 h2
    rw [extractor, extractor_rows_drop headers bad h1 h2 pre post]
    rfl

theorem c9_witness :
    extractor [(("Component").toList), (("Length").toList)]
        ([("1  5\n").toList] ++ (("x  9\n").toList) :: [(("2  6\n").toList)]) =
      extractor [(("Component").toList), (("Length").toList)]
        ([("1  5\n").toList] ++ [(("2  6\n").toList)]) :=
  c9_extractor_total_silent.2 [(("Component").toList), (("Length").toList)]
    [("1  5\n").toList] [(("2  6\n").toList)] (("x  9\n").toList)
    (by decide) (by decide)

/-! ## Claim C5: which rows the extractor keeps -/

/-- Modelled from the spec: a "non-negative integer literal, with optional
thousands separators (e.g. '1,234')" — either a nonempty all-digit string,
or comma-separated digit groups with a leading group of one to three digits
and every following group of exactly three. -/
def spec_integer_literal (s : PyStr) : Bool :=
  match splitOnChar ',' s with
  | [] => false
  | [g] => !g.isEmpty && g.all Char.isDigit
  | g :: gs =>
    (!g.isEmpty && g.length ≤ 3 && g.all Char.isDigit) &&
      gs.all (fun grp => grp.length = 3 && grp.all Char.isDigit)

/-- C5 counterexample: `'1,234'` is a non-negative integer literal with a
thousands separator, yet the extractor SKIPS a row whose first token is
`'1,234'` (`'1,234'.isnumeric()` is false), where the claim says it is kept. -/
theorem c5_counterexample :
    spec_integer_literal (("1,234").toList) = true ∧
    first_column (("1,234 x\n").toList) = ("1,234").toList ∧
    extractor_rows [(("Component").toList), (("Length").toList)]
      [(("1,234 x\n").toList)] = some [] :=
  ⟨by decide, by decide, by decide⟩

/-- C5 (amended): a row line read before the blank-line sentinel is kept if
and only if its first token is a nonempty string of decimal digits;
thousands-separated literals such as `'1,234'` are not accepted and such
rows are skipped. -/
theorem c5_amended (headers : List PyStr) (row : PyStr) (rest : List PyStr)
    (hrow : row ≠ newline) :
    extractor_rows headers (row :: rest) =
      if isnumeric (first_column row) then
        (extractor_rows headers rest).map
          (fun l => rowRecord headers (tokenizeLine (normalized_row row)) :: l)
      else extractor_rows headers rest := by
  simp only [extractor_rows, if_neg hrow]
  cases h : tokenizeLine (normalized_row row) with
  | nil => exact absurd h (tokenizeLine_ne_nil _)
  | cons t ts => simp only [h, first_column, List.headD_cons]

theorem c5_amended_witness :
    extractor_rows [(("Length").toList)] [(("12 34\n").toList)] =
      some [rowRecord [(("Length").toList)] [(("12").toList), (("34").toList)]] :=
  (c5_amended [(("Length").toList)] (("12 34\n").toList) [] (by decide)).trans (by decide)

/-! ## Claim C8: unique keys and last-write-wins -/

/-- C8: every Table produced by the extractor has unique keys, and the value
stored under a key is the record of the last kept row carrying that Length
value — a later duplicate overwrites the earlier record (Python dict
insertion semantics). -/
theorem c8_last_write_wins (headers : List PyStr) (lines : List PyStr) (t : Table)
    (ht : extractor headers lines = some t) :
    (t.map Prod.fst).Nodup ∧
    ∀ (rows : List TableRow), extractor_rows headers lines = some rows →
      ∀ k, dictFind? t k =
        (rows.filter (fun r => decide (pyGet r keyLength = k))).getLast? := by
  obtain ⟨rows0, hrows⟩ := Option.isSome_iff_exists.mp (extractor_rows_isSome headers lines)
  have hext : extractor headers lines =
      some (rows0.foldl (fun final r => dictInsert (pyGet r keyLength) r final) []) := by
    rw [extractor, hrows]
    rfl
  rw [ht] at hext
  have ht2 : t = rows0.foldl (fun final r => dictInsert (pyGet r keyLength) r final) [] :=
    Option.some_injective _ hext
  constructor
  · rw [ht2]
    exact nodupKeys_foldl_dictInsert (fun r => pyGet r keyLength) (fun r => r) rows0 []
      (by simp)
  · intro rows hrows2 k
    rw [hrows] at hrows2
    have hr : rows0 = rows := Option.some_injective _ hrows2
    subst hr
    rw [ht2,
      dictFind?_foldl_dictInsert (fun r => pyGet r keyLength) (fun r => r) rows0 [] k]
    cases (rows0.filter (fun r => decide (pyGet r keyLength = k))).getLast? <;>
      simp [dictFind?]

def hs8W : List PyStr := [(("Component").toList), (("Length").toList)]

def row8a : TableRow := rowRecord hs8W [(("1").toList), (("5").toList)]

def row8b : TableRow := rowRecord hs8W [(("2").toList), (("5").toList)]

def t8W : Table := [(some (("5").toList), row8b)]

theorem c8_last_write_wins_witness :
    (t8W.map Prod.fst).Nodup ∧
    dictFind? t8W (some (("5").toList)) = some row8b := by
  have h := c8_last_write_wins hs8W
    [(("1 5\n").toList), (("2 5\n").toList), newline] t8W (by decide)
  refine ⟨h.1, ?_⟩
  rw [h.2 [row8a, row8b] (by decide) (some (("5").toList))]
  decide

/-! ## Claim C10: surplus row fields collapse onto the single None key -/

theorem zipLongest_of_le {α β : Type} :
    ∀ (hs : List α) (ts : List β), hs.length ≤ ts.length →
      zipLongest hs ts =
        (hs.zip ts).map (fun p => (some p.1, some p.2)) ++
          (ts.drop hs.length).map (fun b => ((none : Option α), some b)) := by
  intro hs
  induction hs with
  | nil => intro ts h; simp [zipLongest]
  | cons a as ih =>
    intro ts h
    cases ts with
    | nil => simp at h
    | cons b bs =>
      simp only [zipLongest, List.zip_cons_cons, List.map_cons, List.cons_append,
        List.length_cons, List.drop_succ_cons]
      rw [ih bs (by simpa using h)]

theorem dictFind?_dictOfPairs {α β : Type} [DecidableEq α] (ps : List (α × β)) (k : α) :
    dictFind? (dictOfPairs ps) k =
      match (ps.filter (fun p => decide (p.1 = k))).getLast? with
      | some p => some p.2
      | none => none := by
  rw [dictOfPairs, dictFind?_foldl_dictInsert Prod.fst Prod.snd ps [] k]
  cases (ps.filter (fun p => decide (p.1 = k))).getLast? <;> simp [dictFind?]

theorem nodupKeys_dictOfPairs {α β : Type} [DecidableEq α] (ps : List (α × β)) :
    ((dictOfPairs ps).map Prod.fst).Nodup := by
  rw [dictOfPairs]
  exact nodupKeys_foldl_dictInsert Prod.fst Prod.snd ps [] (by simp)

theorem countP_key_eq_one {α β : Type} [DecidableEq α] :
    ∀ (d : List (α × β)) (k : α), (d.map Prod.fst).Nodup → k ∈ d.map Prod.fst →
      d.countP (fun p => decide (p.1 = k)) = 1 := by
  intro d
  induction d with
  | nil => simp
  | cons p d ih =>
    intro k hn hm
    obtain ⟨k1, v1⟩ := p
    simp only [List.map_cons, List.nodup_cons] at hn
    rw [List.countP_cons]
    rcases List.mem_cons.mp hm with h | h
    · subst h
      have h0 : d.countP (fun p => decide (p.1 = k)) = 0 := by
        rw [List.countP_eq_zero]
        intro q hq
        simp only [decide_eq_true_eq]
        intro hqk
        exact hn.1 (hqk ▸ List.mem_map_of_mem Prod.fst hq)
      simp [h0]
    · have hk : ¬ k1 = k := by
        intro he
        exact hn.1 (he ▸ h)
      have hne : ((k1, v1) : α × β).1 ≠ k := hk
      rw [ih k hn.2 h]
      simp [hne]

/-- C10: when a kept row tokenizes to more fields than there are headers,
`zip_longest` pads the header side with `None`, and the dict built from the
pairs has exactly one entry with the `None` key, holding the LAST surplus
token (which is also the row's last token); all earlier surplus tokens are
discarded. -/
theorem c10_extra_tokens (hs ts : List PyStr) (h : hs.length < ts.length) :
    (rowRecord hs ts).countP (fun p => decide (p.1 = (none : Option PyStr))) = 1 ∧
    dictFind? (rowRecord hs ts) none = ((ts.drop hs.length).getLast?).map some ∧
    (ts.drop hs.length).getLast? = ts.getLast? := by
  have hdrop : ts.drop hs.length ≠ [] := by
    intro hnil
    have h2 := List.drop_eq_nil_iff.mp hnil
    omega
  obtain ⟨lastTok, hlast⟩ : ∃ x, (ts.drop hs.length).getLast? = some x := by
    cases hx : (ts.drop hs.length).getLast? with
    | none => exact absurd (List.getLast?_eq_none_iff.mp hx) hdrop
    | some x => exact ⟨x, rfl⟩
  have hfind : dictFind? (rowRecord hs ts) none = some (some lastTok) := by
    rw [rowRecord, dictFind?_dictOfPairs, zipLongest_of_le hs ts (le_of_lt h),
      List.filter_append]
    have hA : ((hs.zip ts).map (fun p => (some p.1, some p.2))).filter
        (fun p => decide (p.1 = (none : Option PyStr))) = [] := by
      rw [List.filter_eq_nil_iff]
      intro p hp
      simp only [List.mem_map] at hp
      obtain ⟨q, _, rfl⟩ := hp
      simp
    have hB : ((ts.drop hs.length).map (fun b => ((none : Option PyStr), some b))).filter
        (fun p => decide (p.1 = (none : Option PyStr))) =
        (ts.drop hs.length).map (fun b => ((none : Option PyStr), some b)) := by
      rw [List.filter_eq_self]
      intro p hp
      simp only [List.mem_map] at hp
      obtain ⟨q, _, rfl⟩ := hp
      simp
    rw [hA, hB, List.nil_append, List.getLast?_map, hlast]
    rfl
  refine ⟨?_, ?_, ?_⟩
  · have hmem : (none : Option PyStr) ∈ (rowRecord hs ts).map Prod.fst := by
      by_contra hc
      rw [(dictFind?_eq_none_iff (rowRecord hs ts) none).mpr hc] at hfind
      exact Option.noConfusion hfind
    exact countP_key_eq_one (rowRecord hs ts) none (nodupKeys_dictOfPairs _) hmem
  · rw [hfind, hlast]
    rfl
  · conv_rhs => rw [← List.take_append_drop hs.length ts]
    rw [List.getLast?_append, hlast]
    rfl

theorem c10_extra_tokens_witness :
    (rowRecord [(("A").toList)] [(("1").toList), (("2").toList), (("3").toList)]).countP
      (fun p => decide (p.1 = (none : Option PyStr))) = 1 ∧
    dictFind? (rowRecord [(("A").toList)]
      [(("1").toList), (("2").toList), (("3").toList)]) none = some (some (("3").toList)) := by
  have h := c10_extra_tokens [(("A").toList)]
    [(("1").toList), (("2").toList), (("3").toList)] (by decide)
  exact ⟨h.1, h.2.1.trans (by decide)⟩

/-! ## Claim C2: `extract_best_k_mer` on a source with no `best` line -/

/-- C2 (code bug): for every line source with no line containing the
substring `best`, `extract_best_k_mer` does NOT return an empty result — the
scan loop completes without ever assigning the local variable `best`, and
`return best` raises `UnboundLocalError` (modelled by `none`), contradicting
the claimed empty-result signalling (which the caller's
`if len(best) == 0: continue` check shows to be the intent). -/
theorem c2_no_best_raises (table : List PyStr)
    (h : ∀ line ∈ table, hasSub bestPat line = false) :
    extract_best_k_mer table = none := by
  induction table with
  | nil => rfl
  | cons line rest ih =>
    rw [extract_best_k_mer, if_neg (by simp [h line (List.mem_cons_self line rest)])]
    exact ih (fun l hl => h l (List.mem_cons_of_mem line hl))

theorem c2_no_best_raises_witness :
    extract_best_k_mer [(("127 50 3 0.75\n").toList), newline] = none :=
  c2_no_best_raises [(("127 50 3 0.75\n").toList), newline] (by decide)

/-! ## Claim C7: `extract_alignment_summary` -/

/-- Does the string end in a whitespace character? -/
def endsInSpace (l : List Char) : Bool :=
  match l.getLast? with
  | some c => isSpace c
  | none => false

theorem getLast?_cons_of_ne_nil {α : Type} (a : α) (l : List α) (h : l ≠ []) :
    (a :: l).getLast? = l.getLast? := by
  cases l with
  | nil => exact absurd rfl h
  | cons b m => exact List.getLast?_cons_cons

theorem endsInSpace_cons (a : Char) (l : List Char) (h : l ≠ []) :
    endsInSpace (a :: l) = endsInSpace l := by
  rw [endsInSpace, endsInSpace, getLast?_cons_of_ne_nil a l h]

theorem subUnderscore_ne_nil : ∀ l : List Char, l ≠ [] → subUnderscore l ≠ [] := by
  intro l
  cases l with
  | nil => simp
  | cons a rest =>
    intro _
    cases rest with
    | nil => simp [subUnderscore]
    | cons s rest2 =>
      cases rest2 with
      | nil => simp [subUnderscore]
      | cons b rest3 =>
        simp only [subUnderscore]
        split <;> simp

/-- The underscore substitution never consumes a trailing whitespace
character (there is no following non-whitespace character to match). -/
theorem subUnderscore_endsInSpace :
    ∀ l : List Char, endsInSpace l = true → endsInSpace (subUnderscore l) = true := by
  intro l
  induction l using subUnderscore.induct with
  | case1 a s b rest hcond ih =>
    intro h
    have hb : isSpace b = false := by
      rcases Bool.and_eq_true_iff.mp hcond with ⟨_, h3⟩
      simpa using h3
    rw [subUnderscore, if_pos hcond]
    by_cases hr : rest = []
    · subst hr
      rw [endsInSpace_cons a (s :: b :: []) (by simp),
        endsInSpace_cons s (b :: []) (by simp)] at h
      rw [endsInSpace] at h
      simp [hb] at h
    · rw [endsInSpace_cons a (s :: b :: rest) (by simp),
        endsInSpace_cons s (b :: rest) (by simp),
        endsInSpace_cons b rest hr] at h
      have h2 := ih h
      have hne := subUnderscore_ne_nil rest hr
      rw [endsInSpace_cons a ('_' :: b :: subUnderscore rest) (by simp),
        endsInSpace_cons '_' (b :: subUnderscore rest) (by simp),
        endsInSpace_cons b (subUnderscore rest) hne]
      exact h2
  | case2 a s b rest hcond ih =>
    intro h
    rw [endsInSpace_cons a (s :: b :: rest) (by simp)] at h
    have h2 := ih h
    have hne := subUnderscore_ne_nil (s :: b :: rest) (by simp)
    rw [subUnderscore, if_neg hcond,
      endsInSpace_cons a (subUnderscore (s :: b :: rest)) hne]
    exact h2
  | case3 a rest hshape ih =>
    intro h
    cases rest with
    | nil =>
      have he : subUnderscore [a] = [a] := rfl
      rw [he]
      exact h
    | cons x rest2 =>
      cases rest2 with
      | cons y rest3 => exact absurd rfl (hshape x y rest3)
      | nil =>
        have he : subUnderscore (a :: [x]) = a :: [x] := rfl
        rw [he]
        exact h
  | case4 =>
    intro h
    simp [endsInSpace] at h

/-- Collapsing whitespace runs of a whitespace-terminated string yields a
tab-terminated string. -/
theorem collapseWS_last_tab :
    ∀ l : List Char, endsInSpace l = true → (collapseWS l).getLast? = some '\t' := by
  intro l
  induction l using collapseWS.induct with
  | case1 =>
    intro h
    simp [endsInSpace] at h
  | case2 c hc =>
    intro h
    rw [collapseWS, if_pos hc]
    rfl
  | case3 c hc =>
    intro h
    rw [endsInSpace] at h
    simp at h
    exact absurd h hc
  | case4 c d rest hc hd ih =>
    intro h
    rw [collapseWS, if_pos hc, if_pos hd]
    exact ih (by rwa [endsInSpace_cons c (d :: rest) (by simp)] at h)
  | case5 c d rest hc hd ih =>
    intro h
    rw [collapseWS, if_pos hc, if_neg hd]
    have h2 := ih (by rwa [endsInSpace_cons c (d :: rest) (by simp)] at h)
    have hne : collapseWS (d :: rest) ≠ [] := by
      intro hnil
      rw [hnil] at h2
      exact Option.noConfusion h2
    rw [getLast?_cons_of_ne_nil '\t' (collapseWS (d :: rest)) hne]
    exact h2
  | case6 c d rest hc ih =>
    intro h
    rw [collapseWS, if_neg hc]
    have h2 := ih (by rwa [endsInSpace_cons c (d :: rest) (by simp)] at h)
    have hne : collapseWS (d :: rest) ≠ [] := by
      intro hnil
      rw [hnil] at h2
      exact Option.noConfusion h2
    rw [getLast?_cons_of_ne_nil c (collapseWS (d :: rest)) hne]
    exact h2

theorem splitOnChar_length_ge_two (sep : Char) :
    ∀ l : List Char, sep ∈ l → 2 ≤ (splitOnChar sep l).length := by
  intro l
  induction l with
  | nil => simp
  | cons c cs ih =>
    intro h
    simp only [splitOnChar]
    by_cases hc : c = sep
    · rw [if_pos hc]
      cases hsp : splitOnChar sep cs with
      | nil => exact absurd hsp (splitOnChar_ne_nil sep cs)
      | cons t ts => simp
    · rw [if_neg hc]
      have hmem : sep ∈ cs := by
        rcases List.mem_cons.mp h with h1 | h1
        · exact absurd h1.symm hc
        · exact h1
      cases hsp : splitOnChar sep cs with
      | nil => exact absurd hsp (splitOnChar_ne_nil sep cs)
      | cons t ts =>
        have h2 := ih hmem
        rw [hsp] at h2
        simp only [List.length_cons] at h2 ⊢
        omega

/-- A newline-terminated line always tokenizes (by the alignment-summary
tokenizer) into at least two parts, so `alignment_summary[1]` cannot raise
on it: the trailing newline survives the underscore substitution, becomes a
trailing tab, and yields a trailing empty token. -/
theorem alignTokens_length_ge_two (line : List Char) (h : line.getLast? = some '\n') :
    2 ≤ (alignTokens line).length := by
  have h1 : endsInSpace line = true := by
    rw [endsInSpace, h]
    rfl
  have h2 := subUnderscore_endsInSpace line h1
  have h3 := collapseWS_last_tab (subUnderscore line) h2
  have h4 : '\t' ∈ collapseWS (subUnderscore line) := List.mem_of_mem_getLast? h3
  exact splitOnChar_length_ge_two '\t' (collapseWS (subUnderscore line)) h4

/-- C7 counterexample: on the line source consisting of the single
unterminated line `word` (a log file truncated without a final newline),
`extract_alignment_summary` raises `IndexError` at `alignment_summary[1]`
(modelled by `none`) instead of returning the accumulated values — so it
does not return normally for *every* line source. -/
theorem c7_counterexample :
    extract_alignment_summary [(("word").toList)] = none := by decide

/-- C7 (amended): for every line source all of whose lines end in a newline
character (as Python file iteration guarantees for every line except a
possibly unterminated final one), `extract_alignment_summary` returns
normally — even when the section yields fewer than 6 values — with exactly
the accumulated index-1 tokens of the non-`--` lines preceding the
blank-line sentinel. -/
theorem c7_amended (table : List PyStr)
    (h : ∀ line ∈ table, line.getLast? = some '\n') :
    ∃ rest,
      extract_alignment_summary table =
        some (((table.takeWhile (fun l => !decide (l = newline))).filter
          (fun l => !hasSub dashPat l)).map (fun l => ((alignTokens l).get? 1).getD []),
          rest) := by
  induction table with
  | nil => exact ⟨[], rfl⟩
  | cons line rest ih =>
    obtain ⟨r, hr⟩ := ih (fun l hl => h l (List.mem_cons_of_mem line hl))
    by_cases hs : line = newline
    · refine ⟨rest, ?_⟩
      rw [extract_alignment_summary, if_pos hs]
      simp [hs, List.takeWhile_cons]
    · have hline := h line (List.mem_cons_self line rest)
      by_cases hd : hasSub dashPat line = true
      · refine ⟨r, ?_⟩
        rw [extract_alignment_summary, if_neg hs, if_pos hd, hr]
        simp [List.takeWhile_cons, hs, List.filter_cons, hd]
      · have hlen := alignTokens_length_ge_two line hline
        obtain ⟨v, hv⟩ : ∃ v, (alignTokens line).get? 1 = some v := by
          cases hv : (alignTokens line).get? 1 with
          | none =>
            have h2 := List.get?_eq_none.mp hv
            omega
          | some v => exact ⟨v, rfl⟩
        refine ⟨r, ?_⟩
        rw [extract_alignment_summary, if_neg hs, if_neg hd, hv, hr]
        have hstep : ((line :: rest).takeWhile (fun l => !decide (l = newline))).filter
            (fun l => !hasSub dashPat l) =
            line :: (rest.takeWhile (fun l => !decide (l = newline))).filter
              (fun l => !hasSub dashPat l) := by
          rw [List.takeWhile_cons, if_pos (by simp [hs]), List.filter_cons,
            if_pos (by simp [hd])]
        rw [hstep, List.map_cons, hv]
        rfl

theorem c7_amended_witness :
    (extract_alignment_summary
        [(("a  1\n").toList), (("----\n").toList), (("b  2\n").toList), newline,
         (("junk\n").toList)]).map Prod.fst =
      some [(("1").toList), (("2").toList)] := by
  obtain ⟨r, hr⟩ := c7_amended
    [(("a  1\n").toList), (("----\n").toList), (("b  2\n").toList), newline,
     (("junk\n").toList)] (by decide)
  rw [hr]
  rfl

/-! ## Claim C6: whitespace-insensitivity of the row tokenizer -/

/-- The row-normalisation pipeline of `extractor` (lines 180–184): phrase
substitution, strip, collapse whitespace runs, split. -/
def tokenize_row (row : List Char) : List (List Char) :=
  tokenizeLine (normalized_row row)

/-- Join a list of field contents with a list of separator strings
(one separator between each pair of adjacent fields). -/
def joinFields : List (List Char) → List (List Char) → List Char
  | [], _ => []
  | f :: _, [] => f
  | f :: fs, s :: ss => f ++ s ++ joinFields fs ss

theorem normalized_row_id (row : List Char) (h : hasSub noneFoundPat row = false) :
    normalized_row row = row := by
  rw [normalized_row, h]
  rfl

theorem collapseWS_cons_nonspace (c : Char) (hc : isSpace c = false) (l : List Char) :
    collapseWS (c :: l) = c :: collapseWS l := by
  cases l with
  | nil => simp [collapseWS, hc]
  | cons d rest => rw [collapseWS, if_neg (by simp [hc])]

theorem collapseWS_nonspace_append :
    ∀ (f : List Char), (∀ c ∈ f, isSpace c = false) →
      ∀ l, collapseWS (f ++ l) = f ++ collapseWS l := by
  intro f
  induction f with
  | nil => simp
  | cons c f' ih =>
    intro hall l
    rw [List.cons_append,
      collapseWS_cons_nonspace c (hall c (List.mem_cons_self c f')) (f' ++ l),
      ih (fun d hd => hall d (List.mem_cons_of_mem c hd)) l, List.cons_append]

theorem collapseWS_space_append :
    ∀ (s : List Char), s ≠ [] → (∀ c ∈ s, isSpace c = true) →
      ∀ (c : Char) (m : List Char), isSpace c = false →
        collapseWS (s ++ c :: m) = '\t' :: collapseWS (c :: m) := by
  intro s
  induction s with
  | nil => intro h; exact absurd rfl h
  | cons x s' ih =>
    intro _ hall c m hc
    have hx : isSpace x = true := hall x (List.mem_cons_self x s')
    cases s' with
    | nil =>
      simp only [List.cons_append, List.nil_append]
      rw [collapseWS, if_pos hx, if_neg (by simp [hc])]
    | cons y s2 =>
      have hy : isSpace y = true := hall y (List.mem_cons_of_mem x (List.mem_cons_self y s2))
      simp only [List.cons_append]
      rw [collapseWS, if_pos hx, if_pos hy]
      have h2 := ih (by simp) (fun d hd => hall d (List.mem_cons_of_mem x hd)) c m hc
      simpa using h2

theorem splitOnChar_nonsep :
    ∀ (f : List Char) (sep : Char), (∀ c ∈ f, ¬ c = sep) → splitOnChar sep f = [f] := by
  intro f
  induction f with
  | nil => intro sep _; rfl
  | cons c f' ih =>
    intro sep h
    rw [splitOnChar, if_neg (h c (List.mem_cons_self c f')),
      ih sep (fun d hd => h d (List.mem_cons_of_mem c hd))]

theorem splitOnChar_sep_append (sep : Char) :
    ∀ (f : List Char), (∀ c ∈ f, ¬ c = sep) →
      ∀ l, splitOnChar sep (f ++ sep :: l) = f :: splitOnChar sep l := by
  intro f
  induction f with
  | nil =>
    intro _ l
    simp only [List.nil_append]
    rw [splitOnChar, if_pos rfl]
  | cons c f' ih =>
    intro h l
    simp only [List.cons_append]
    rw [splitOnChar, if_neg (h c (List.mem_cons_self c f')),
      ih (fun d hd => h d (List.mem_cons_of_mem c hd)) l]

theorem dropWhile_append_all (p : Char → Bool) :
    ∀ (a : List Char), (∀ c ∈ a, p c = true) →
      ∀ b, (a ++ b).dropWhile p = b.dropWhile p := by
  intro a
  induction a with
  | nil => simp
  | cons c a' ih =>
    intro h b
    rw [List.cons_append, List.dropWhile_cons, if_pos (h c (List.mem_cons_self c a'))]
    exact ih (fun d hd => h d (List.mem_cons_of_mem c hd)) b

theorem dropWhile_cons_neg (p : Char → Bool) (c : Char) (l : List Char)
    (hc : p c = false) : (c :: l).dropWhile p = c :: l := by
  rw [List.dropWhile_cons, if_neg (by simp [hc])]

/-- Stripping a string that is a non-whitespace-delimited core surrounded by
whitespace returns exactly the core. -/
theorem pyStrip_sandwich (lead trail m : List Char)
    (hlead : ∀ c ∈ lead, isSpace c = true) (htrail : ∀ c ∈ trail, isSpace c = true)
    (c0 : Char) (m1 : List Char) (hm : m = c0 :: m1) (hc0 : isSpace c0 = false)
    (m2 : List Char) (d0 : Char) (hm2 : m = m2 ++ [d0]) (hd0 : isSpace d0 = false) :
    pyStrip (lead ++ m ++ trail) = m := by
  rw [pyStrip, List.append_assoc, dropWhile_append_all isSpace lead hlead (m ++ trail)]
  have h1 : (m ++ trail).dropWhile isSpace = m ++ trail := by
    rw [hm, List.cons_append, dropWhile_cons_neg isSpace c0 (m1 ++ trail) hc0,
      ← List.cons_append, ← hm]
  rw [h1, List.reverse_append]
  rw [dropWhile_append_all isSpace trail.reverse
    (fun c hc => htrail c (List.mem_reverse.mp hc)) m.reverse]
  have h2 : m.reverse.dropWhile isSpace = m.reverse := by
    rw [hm2, List.reverse_append, List.reverse_singleton, List.singleton_append,
      dropWhile_cons_neg isSpace d0 m2.reverse hd0]
  rw [h2, List.reverse_reverse]

theorem joinFields_cons_head (f2 : List Char) (fs2 ss : List (List Char)) :
    ∃ t, joinFields (f2 :: fs2) ss = f2 ++ t := by
  cases ss with
  | nil => exact ⟨[], (List.append_nil f2).symm⟩
  | cons s1 ss1 =>
    refine ⟨s1 ++ joinFields fs2 ss1, ?_⟩
    rw [joinFields, List.append_assoc]

theorem joinFields_last :
    ∀ (seps fields : List (List Char)),
      (∀ f ∈ fields, f ≠ [] ∧ ∀ c ∈ f, isSpace c = false) →
      seps.length + 1 = fields.length →
      ∃ m2 d0, joinFields fields seps = m2 ++ [d0] ∧ isSpace d0 = false := by
  intro seps
  induction seps with
  | nil =>
    intro fields hf hlen
    obtain ⟨f, rfl⟩ : ∃ f, fields = [f] := by
      cases fields with
      | nil => simp at hlen
      | cons f fs =>
        cases fs with
        | nil => exact ⟨f, rfl⟩
        | cons g gs => simp at hlen
    obtain ⟨hne, hall⟩ := hf f (List.mem_cons_self f [])
    rcases List.eq_nil_or_concat f with h | ⟨m2, d0, h⟩
    · exact absurd h hne
    · refine ⟨m2, d0, ?_, ?_⟩
      · rw [joinFields]
        rw [h, List.concat_eq_append]
      · exact hall d0 (by rw [h, List.concat_eq_append]; exact List.mem_append_right m2 (List.mem_cons_self d0 []))
  | cons s ss ih =>
    intro fields hf hlen
    obtain ⟨f, fields2, rfl⟩ : ∃ f fields2, fields = f :: fields2 := by
      cases fields with
      | nil => simp at hlen
      | cons f fs => exact ⟨f, fs, rfl⟩
    have hlen2 : ss.length + 1 = fields2.length := by
      simp only [List.length_cons] at hlen
      omega
    obtain ⟨m2, d0, hj, hd0⟩ :=
      ih fields2 (fun g hg => hf g (List.mem_cons_of_mem f hg)) hlen2
    refine ⟨f ++ s ++ m2, d0, ?_, hd0⟩
    rw [joinFields, hj, List.append_assoc, List.append_assoc, List.append_assoc]

/-- Tokenizing a join of nonempty whitespace-free fields by nonempty
whitespace separators recovers exactly the fields. -/
theorem split_collapse_join :
    ∀ (seps fields : List (List Char)),
      (∀ f ∈ fields, f ≠ [] ∧ ∀ c ∈ f, isSpace c = false) →
      (∀ s ∈ seps, s ≠ [] ∧ ∀ c ∈ s, isSpace c = true) →
      seps.length + 1 = fields.length →
      splitOnChar '\t' (collapseWS (joinFields fields seps)) = fields := by
  intro seps
  induction seps with
  | nil =>
    intro fields hf _ hlen
    obtain ⟨f, rfl⟩ : ∃ f, fields = [f] := by
      cases fields with
      | nil => simp at hlen
      | cons f fs =>
        cases fs with
        | nil => exact ⟨f, rfl⟩
        | cons g gs => simp at hlen
    obtain ⟨hne, hall⟩ := hf f (List.mem_cons_self f [])
    have h1 : collapseWS f = f := by
      have h2 := collapseWS_nonspace_append f hall []
      rw [List.append_nil] at h2
      simpa [collapseWS] using h2
    rw [joinFields, h1]
    exact splitOnChar_nonsep f '\t'
      (fun c hc he => by have h3 := hall c hc; rw [he] at h3; simp [isSpace] at h3)
  | cons s ss ih =>
    intro fields hf hs hlen
    obtain ⟨f, fields2, rfl⟩ : ∃ f fields2, fields = f :: fields2 := by
      cases fields with
      | nil => simp at hlen
      | cons f fs => exact ⟨f, fs, rfl⟩
    have hlen2 : ss.length + 1 = fields2.length := by
      simp only [List.length_cons] at hlen
      omega
    obtain ⟨f2, fs2, rfl⟩ : ∃ f2 fs2, fields2 = f2 :: fs2 := by
      cases fields2 with
      | nil => simp at hlen2
      | cons f2 fs2 => exact ⟨f2, fs2, rfl⟩
    obtain ⟨hfne, hfall⟩ := hf f (List.mem_cons_self f (f2 :: fs2))
    obtain ⟨hsne, hsall⟩ := hs s (List.mem_cons_self s ss)
    obtain ⟨hf2ne, hf2all⟩ :=
      hf f2 (List.mem_cons_of_mem f (List.mem_cons_self f2 fs2))
    obtain ⟨c0, f2t, rfl⟩ : ∃ c0 f2t, f2 = c0 :: f2t := by
      cases f2 with
      | nil => exact absurd rfl hf2ne
      | cons c0 f2t => exact ⟨c0, f2t, rfl⟩
    have hc0 : isSpace c0 = false := hf2all c0 (List.mem_cons_self c0 f2t)
    obtain ⟨t, ht⟩ := joinFields_cons_head (c0 :: f2t) fs2 ss
    have hnonsep : ∀ c ∈ f, ¬ c = '\t' := fun c hc he => by
      have h3 := hfall c hc
      rw [he] at h3
      simp [isSpace] at h3
    have hm : collapseWS (s ++ joinFields ((c0 :: f2t) :: fs2) ss) =
        '\t' :: collapseWS (joinFields ((c0 :: f2t) :: fs2) ss) := by
      rw [ht, List.cons_append, collapseWS_space_append s hsne hsall c0 (f2t ++ t) hc0,
        ← List.cons_append, ← ht]
    rw [joinFields, List.append_assoc,
      collapseWS_nonspace_append f hfall (s ++ joinFields ((c0 :: f2t) :: fs2) ss),
      hm, splitOnChar_sep_append '\t' f hnonsep
        (collapseWS (joinFields ((c0 :: f2t) :: fs2) ss)),
      ih ((c0 :: f2t) :: fs2) (fun g hg => hf g (List.mem_cons_of_mem f hg))
        (fun s2 hs2 => hs s2 (List.mem_cons_of_mem s hs2)) hlen2]

theorem pyStrip_all_space (l : List Char) (h : ∀ c ∈ l, isSpace c = true) :
    pyStrip l = [] := by
  rw [pyStrip]
  have h1 : l.dropWhile isSpace = [] := by
    have h2 := dropWhile_append_all isSpace l h []
    simpa using h2
  rw [h1]
  rfl

/-- C6 (amended): the `extractor` row tokenizer (lines 180–184) is
whitespace-insensitive *provided the `none found` phrase substitution does
not fire on either line*: for every sequence of nonempty, whitespace-free
field contents, tokenizing the single-space join equals tokenizing any line
with the same fields separated by arbitrary nonempty whitespace runs with
arbitrary leading/trailing whitespace, as long as neither line contains the
substring `none found` (the substitution, which precedes tokenization, is
itself whitespace-sensitive — see the counterexample). -/
theorem c6_amended (fields seps : List (List Char)) (lead trail : List Char)
    (hf : ∀ f ∈ fields, f ≠ [] ∧ ∀ c ∈ f, isSpace c = false)
    (hs : ∀ s ∈ seps, s ≠ [] ∧ ∀ c ∈ s, isSpace c = true)
    (hld : ∀ c ∈ lead, isSpace c = true) (htr : ∀ c ∈ trail, isSpace c = true)
    (hlen : seps.length + 1 = fields.length ∨ (fields = [] ∧ seps = []))
    (h1 : hasSub noneFoundPat (lead ++ joinFields fields seps ++ trail) = false)
    (h2 : hasSub noneFoundPat
      (joinFields fields (List.replicate (fields.length - 1) [' '])) = false) :
    tokenize_row (lead ++ joinFields fields seps ++ trail) =
      tokenize_row (joinFields fields (List.replicate (fields.length - 1) [' '])) := by
  rw [tokenize_row, tokenize_row, normalized_row_id _ h1, normalized_row_id _ h2]
  rcases hlen with hlen | ⟨hfe, hse⟩
  · obtain ⟨f, fs, rfl⟩ : ∃ f fs, fields = f :: fs := by
      cases fields with
      | nil => simp at hlen
      | cons f fs => exact ⟨f, fs, rfl⟩
    obtain ⟨hfne, hfall⟩ := hf f (List.mem_cons_self f fs)
    obtain ⟨c0, ftail, rfl⟩ : ∃ c0 ftail, f = c0 :: ftail := by
      cases f with
      | nil => exact absurd rfl hfne
      | cons c0 ftail => exact ⟨c0, ftail, rfl⟩
    have hc0 : isSpace c0 = false := hfall c0 (List.mem_cons_self c0 ftail)
    have hs2 : ∀ s ∈ List.replicate (((c0 :: ftail) :: fs).length - 1) ([' ']),
        s ≠ [] ∧ ∀ c ∈ s, isSpace c = true := by
      intro s hsm
      rw [List.mem_replicate] at hsm
      rcases hsm with ⟨_, rfl⟩
      refine ⟨by simp, ?_⟩
      intro c hc
      rw [List.mem_singleton] at hc
      rw [hc]
      rfl
    have hlen3 : (List.replicate (((c0 :: ftail) :: fs).length - 1) ([' '])).length + 1 =
        ((c0 :: ftail) :: fs).length := by
      simp
    obtain ⟨t1, ht1⟩ := joinFields_cons_head (c0 :: ftail) fs seps
    obtain ⟨m2, d0, hm2, hd0⟩ := joinFields_last seps ((c0 :: ftail) :: fs) hf hlen
    obtain ⟨t2, ht2⟩ := joinFields_cons_head (c0 :: ftail) fs
      (List.replicate (((c0 :: ftail) :: fs).length - 1) ([' ']))
    obtain ⟨m4, d4, hm4, hd4⟩ := joinFields_last
      (List.replicate (((c0 :: ftail) :: fs).length - 1) ([' ']))
      ((c0 :: ftail) :: fs) hf hlen3
    have hstrip1 := pyStrip_sandwich lead trail (joinFields ((c0 :: ftail) :: fs) seps)
      hld htr c0 (ftail ++ t1) (by rw [ht1, List.cons_append]) hc0 m2 d0 hm2 hd0
    have hstrip2 := pyStrip_sandwich [] [] (joinFields ((c0 :: ftail) :: fs)
        (List.replicate (((c0 :: ftail) :: fs).length - 1) ([' '])))
      (by simp) (by simp) c0 (ftail ++ t2) (by rw [ht2, List.cons_append]) hc0 m4 d4 hm4 hd4
    rw [List.nil_append, List.append_nil] at hstrip2
    rw [tokenizeLine, tokenizeLine, hstrip1, hstrip2,
      split_collapse_join seps ((c0 :: ftail) :: fs) hf hs hlen,
      split_collapse_join (List.replicate (((c0 :: ftail) :: fs).length - 1) ([' ']))
        ((c0 :: ftail) :: fs) hf hs2 hlen3]
  · subst hfe
    subst hse
    have hall : ∀ c ∈ lead ++ joinFields [] [] ++ trail, isSpace c = true := by
      intro c hc
      rw [joinFields] at hc
      simp only [List.append_nil, List.mem_append] at hc
      rcases hc with hc | hc
      · exact hld c hc
      · exact htr c hc
    rw [tokenizeLine, tokenizeLine, pyStrip_all_space _ hall]
    rfl

/-- C6 counterexample: the fields `none` and `found` joined by a single
space versus joined by a two-space run tokenize differently, because the
`none found` phrase substitution (part of the row tokenizer, line 180–181)
fires only on the single-space form.  So the row tokenizer as a whole is
not insensitive to whitespace irregularity for every sequence of fields. -/
theorem c6_counterexample :
    (∀ f ∈ [("none").toList, ("found").toList],
      f ≠ ([] : List Char) ∧ ∀ c ∈ f, isSpace c = false) ∧
    (∀ c ∈ [' ', ' '], isSpace c = true) ∧
    joinFields [("none").toList, ("found").toList] [[' ']] = ("none found").toList ∧
    joinFields [("none").toList, ("found").toList] [[' ', ' ']] = ("none  found").toList ∧
    tokenize_row (joinFields [("none").toList, ("found").toList] [[' ']]) ≠
      tokenize_row (joinFields [("none").toList, ("found").toList] [[' ', ' ']]) :=
  ⟨by decide, by decide, by decide, by decide, by decide⟩

theorem c6_amended_witness :
    tokenize_row ((" ").toList ++
        joinFields [("ab").toList, ("cd").toList] [(" \t").toList] ++ []) =
      tokenize_row (joinFields [("ab").toList, ("cd").toList]
        (List.replicate (([("ab").toList, ("cd").toList] : List (List Char)).length - 1)
          ([' ']))) :=
  c6_amended [("ab").toList, ("cd").toList] [(" \t").toList] ((" ").toList) []
    (by decide) (by decide) (by decide) (by decide) (Or.inl (by decide))
    (by decide) (by decide)

/-!
## Claim C1: independence of runs in `assemblies_summary`

The only state carried from one iteration of the `for address` loop to the
next (apart from the output streams) is `alignment_summary_list`, which is
assigned only when a `Read alignment summary` header is dispatched.  The
lemma `assemblies_scan_withAls` makes its role exact: the scan result is a
function of the run's own lines except that a run which never (successfully)
dispatches an alignment extraction passes the inherited value through.
-/

/-- Patch the `alignment_summary_list` component of a scan-from-unbound
result with an inherited value. -/
def withAls (als : Option (List PyStr)) :
    Option (List PyStr × Option (List PyStr)) → Option (List PyStr × Option (List PyStr))
  | none => none
  | some (best, none) => some (best, als)
  | some (best, some v) => some (best, some v)

theorem withAls_withAls (als : Option (List PyStr)) (als2 : List PyStr)
    (x : Option (List PyStr × Option (List PyStr))) :
    withAls als (withAls (some als2) x) = withAls (some als2) x := by
  rcases x with _ | ⟨best, _ | v⟩ <;> rfl

/-- The scan with an inherited `alignment_summary_list` equals the scan from
the unbound state, patched: the inherited value is returned unchanged unless
the run's own lines produce an alignment summary. -/
theorem assemblies_scan_withAls :
    ∀ (lines : List PyStr) (st : ScanState) (best : List PyStr)
      (als : Option (List PyStr)),
      assemblies_scan lines st best als = withAls als (assemblies_scan lines st best none) := by
  intro lines
  induction lines with
  | nil =>
    intro st best als
    cases st <;> rfl
  | cons line rest ih =>
    intro st best als
    cases st with
    | scanning =>
      by_cases h1 : isKmerHeader line = true
      · rw [assemblies_scan, if_pos h1, assemblies_scan, if_pos h1]
        exact ih (.seekBest (isAlignHeader line)) best als
      · by_cases h2 : isAlignHeader line = true
        · rw [assemblies_scan, if_neg h1, if_pos h2, assemblies_scan, if_neg h1, if_pos h2]
          exact ih (.inAlign []) best als
        · rw [assemblies_scan, if_neg h1, if_neg h2, assemblies_scan, if_neg h1, if_neg h2]
          exact ih .scanning best als
    | seekBest alsoAlign =>
      by_cases h1 : hasSub bestPat line = true
      · cases alsoAlign with
        | true =>
          rw [assemblies_scan, if_pos h1, assemblies_scan, if_pos h1]
          exact ih (.inAlign []) (tokenizeLine line) als
        | false =>
          rw [assemblies_scan, if_pos h1, assemblies_scan, if_pos h1]
          exact ih .scanning (tokenizeLine line) als
      · rw [assemblies_scan, if_neg h1, assemblies_scan, if_neg h1]
        exact ih (.seekBest alsoAlign) best als
    | inAlign acc =>
      by_cases h1 : line = newline
      · rw [assemblies_scan, if_pos h1, assemblies_scan, if_pos h1]
        rw [ih .scanning best (some acc)]
        exact (withAls_withAls als acc (assemblies_scan rest .scanning best none)).symm
      · by_cases h2 : hasSub dashPat line = true
        · rw [assemblies_scan, if_neg h1, if_pos h2, assemblies_scan, if_neg h1, if_pos h2]
          exact ih (.inAlign acc) best als
        · rw [assemblies_scan, if_neg h1, if_neg h2, assemblies_scan, if_neg h1, if_neg h2]
          cases hv : (alignTokens line).get? 1 with
          | none => rfl
          | some v => exact ih (.inAlign (acc ++ [v])) best als

/-- Fidelity of the state machine: scanning in `seekBest` state is exactly
`extract_best_k_mer` consuming the shared iterator, then resuming. -/
theorem assemblies_scan_seekBest :
    ∀ (lines : List PyStr) (alsoAlign : Bool) (best : List PyStr)
      (als : Option (List PyStr)),
      assemblies_scan lines (.seekBest alsoAlign) best als =
        match extract_best_k_mer lines with
        | none => none
        | some (b, rest) =>
          assemblies_scan rest (if alsoAlign then ScanState.inAlign [] else .scanning) b als := by
  intro lines
  induction lines with
  | nil => intro alsoAlign best als; rfl
  | cons line rest ih =>
    intro alsoAlign best als
    by_cases h1 : hasSub bestPat line = true
    · rw [assemblies_scan, if_pos h1, extract_best_k_mer, if_pos h1]
      cases alsoAlign <;> rfl
    · rw [assemblies_scan, if_neg h1, extract_best_k_mer, if_neg h1]
      exact ih alsoAlign best als

/-- Fidelity of the state machine: scanning in `inAlign` state is exactly
`extract_alignment_summary` consuming the shared iterator, then resuming
with `alignment_summary_list` set. -/
theorem assemblies_scan_inAlign :
    ∀ (lines : List PyStr) (acc best : List PyStr) (als : Option (List PyStr)),
      assemblies_scan lines (.inAlign acc) best als =
        match extract_alignment_summary lines with
        | none => none
        | some (vs, rest) => assemblies_scan rest .scanning best (some (acc ++ vs)) := by
  intro lines
  induction lines with
  | nil =>
    intro acc best als
    simp [assemblies_scan, extract_alignment_summary]
  | cons line rest ih =>
    intro acc best als
    by_cases h1 : line = newline
    · rw [assemblies_scan, if_pos h1, extract_alignment_summary, if_pos h1]
      simp [assemblies_scan]
    · by_cases h2 : hasSub dashPat line = true
      · rw [assemblies_scan, if_neg h1, if_pos h2,
          extract_alignment_summary, if_neg h1, if_pos h2]
        exact ih acc best als
      · rw [assemblies_scan, if_neg h1, if_neg h2,
          extract_alignment_summary, if_neg h1, if_neg h2]
        cases hv : (alignTokens line).get? 1 with
        | none => simp only [hv]
        | some v =>
          simp only [hv]
          rw [ih (acc ++ [v]) best als]
          cases he : extract_alignment_summary rest with
          | none => simp only [he]
          | some p =>
            obtain ⟨vs, r⟩ := p
            simp only [he]
            simp [List.append_assoc]

/-- A run whose own log produces an alignment summary (scanning from the
unbound state yields `some v`) is processed identically whatever
`alignment_summary_list` value it inherits. -/
theorem assemblies_run_fresh (folder : PyStr) (lines : List PyStr)
    (b v : List PyStr)
    (hfresh : assemblies_scan lines .scanning [] none = some (b, some v)) :
    ∀ als, assemblies_run als folder lines = assemblies_run none folder lines := by
  intro als
  rw [assemblies_run, assemblies_run, assemblies_scan_withAls lines .scanning [] als,
    hfresh]
  rfl

/-- Slot-level independence: if run `i` is the same (folder, log) in two
invocations and its own log yields an alignment summary, then — whatever the
two invocations' inherited `alignment_summary_list` states — both emit the
same slot for run `i`, provided both invocations complete. -/
theorem assemblies_slot_independent :
    ∀ (i : Nat) (runs1 runs2 : List (PyStr × List PyStr)) (folder : PyStr)
      (lines : List PyStr) (als1 als2 : Option (List PyStr))
      (s1 s2 : List (Option AssemblyRecord)),
      runs1.get? i = some (folder, lines) → runs2.get? i = some (folder, lines) →
      (∃ b v, assemblies_scan lines .scanning [] none = some (b, some v)) →
      assemblies_summary_from als1 runs1 = some s1 →
      assemblies_summary_from als2 runs2 = some s2 →
      s1.get? i = s2.get? i := by
  intro i
  induction i with
  | zero =>
    intro runs1 runs2 folder lines als1 als2 s1 s2 h1 h2 hfresh hs1 hs2
    obtain ⟨b, v, hf⟩ := hfresh
    cases runs1 with
    | nil => simp at h1
    | cons r1 t1 =>
      cases runs2 with
      | nil => simp at h2
      | cons r2 t2 =>
        rw [List.get?_cons_zero] at h1 h2
        have hr1 : r1 = (folder, lines) := Option.some_injective _ h1
        have hr2 : r2 = (folder, lines) := Option.some_injective _ h2
        subst hr1
        subst hr2
        rw [assemblies_summary_from] at hs1 hs2
        rw [assemblies_run_fresh folder lines b v hf als1] at hs1
        rw [assemblies_run_fresh folder lines b v hf als2] at hs2
        cases hrun : assemblies_run none folder lines with
        | none =>
          rw [hrun] at hs1
          exact absurd hs1 (by simp)
        | some p =>
          obtain ⟨alsx, orec⟩ := p
          rw [hrun] at hs1 hs2
          have hs1x : Option.map (fun t => orec :: t) (assemblies_summary_from alsx t1) =
              some s1 := hs1
          have hs2x : Option.map (fun t => orec :: t) (assemblies_summary_from alsx t2) =
              some s2 := hs2
          cases ht1 : assemblies_summary_from alsx t1 with
          | none =>
            rw [ht1] at hs1x
            exact absurd hs1x (by simp)
          | some u1 =>
            cases ht2 : assemblies_summary_from alsx t2 with
            | none =>
              rw [ht2] at hs2x
              exact absurd hs2x (by simp)
            | some u2 =>
              rw [ht1] at hs1x
              rw [ht2] at hs2x
              simp only [Option.map_some'] at hs1x hs2x
              have e1 : s1 = orec :: u1 := (Option.some_injective _ hs1x).symm
              have e2 : s2 = orec :: u2 := (Option.some_injective _ hs2x).symm
              subst e1
              subst e2
              rfl
  | succ i ih =>
    intro runs1 runs2 folder lines als1 als2 s1 s2 h1 h2 hfresh hs1 hs2
    cases runs1 with
    | nil => simp at h1
    | cons r1 t1 =>
      cases runs2 with
      | nil => simp at h2
      | cons r2 t2 =>
        rw [List.get?_cons_succ] at h1 h2
        obtain ⟨f1, l1⟩ := r1
        obtain ⟨f2, l2⟩ := r2
        rw [assemblies_summary_from] at hs1 hs2
        cases hx1 : assemblies_run als1 f1 l1 with
        | none =>
          rw [hx1] at hs1
          exact absurd hs1 (by simp)
        | some p1 =>
          obtain ⟨a1, o1⟩ := p1
          rw [hx1] at hs1
          have hs1x : Option.map (fun t => o1 :: t) (assemblies_summary_from a1 t1) =
              some s1 := hs1
          cases hx2 : assemblies_run als2 f2 l2 with
          | none =>
            rw [hx2] at hs2
            exact absurd hs2 (by simp)
          | some p2 =>
            obtain ⟨a2, o2⟩ := p2
            rw [hx2] at hs2
            have hs2x : Option.map (fun t => o2 :: t) (assemblies_summary_from a2 t2) =
                some s2 := hs2
            cases ht1 : assemblies_summary_from a1 t1 with
            | none =>
              rw [ht1] at hs1x
              exact absurd hs1x (by simp)
            | some u1 =>
              cases ht2 : assemblies_summary_from a2 t2 with
              | none =>
                rw [ht2] at hs2x
                exact absurd hs2x (by simp)
              | some u2 =>
                rw [ht1] at hs1x
                rw [ht2] at hs2x
                simp only [Option.map_some'] at hs1x hs2x
                have e1 : s1 = o1 :: u1 := (Option.some_injective _ hs1x).symm
                have e2 : s2 = o2 :: u2 := (Option.some_injective _ hs2x).symm
                subst e1
                subst e2
                rw [List.get?_cons_succ, List.get?_cons_succ]
                exact ih t1 t2 folder lines a1 a2 u1 u2 h1 h2 hfresh ht1 ht2


/-- C1 (amended): a run whose own log yields an alignment summary is
processed independently: for every position `i` and every two invocations
whose run at position `i` has the identical folder name and log lines, and
whose log's scan (from the unbound state) produces an alignment summary,
the two invocations append the identical record slot for that run —
provided both invocations complete without an exception.  (Runs whose log
has a best K-mer but no alignment-summary header are NOT independent: they
reuse the `alignment_summary_list` left over from an earlier run, or crash
— see the counterexample.) -/
theorem c1_amended (i : Nat) (runs1 runs2 : List (PyStr × List PyStr))
    (folder : PyStr) (lines : List PyStr) (s1 s2 : List (Option AssemblyRecord))
    (h1 : runs1.get? i = some (folder, lines))
    (h2 : runs2.get? i = some (folder, lines))
    (hfresh : ∃ b v, assemblies_scan lines .scanning [] none = some (b, some v))
    (hs1 : assemblies_summary runs1 = some s1)
    (hs2 : assemblies_summary runs2 = some s2) :
    s1.get? i = s2.get? i :=
  assemblies_slot_independent i runs1 runs2 folder lines none none s1 s2 h1 h2 hfresh
    hs1 hs2

def kmerHeaderW : PyStr := ("K-mer Contigs Dead ends Score\n").toList

def alignHeaderW : PyStr := ("Read alignment summary\n").toList

/-- A log with a best K-mer row and a 6-value alignment summary. -/
def logA1 : List PyStr :=
  [kmerHeaderW, ("127 50 3 0.75 best\n").toList, alignHeaderW,
   ("a  1\n").toList, ("b  2\n").toList, ("c  3\n").toList,
   ("d  4\n").toList, ("e  5\n").toList, ("f  6\n").toList, newline]

/-- Identical to `logA1` except for the first alignment value. -/
def logA2 : List PyStr :=
  [kmerHeaderW, ("127 50 3 0.75 best\n").toList, alignHeaderW,
   ("a  9\n").toList, ("b  2\n").toList, ("c  3\n").toList,
   ("d  4\n").toList, ("e  5\n").toList, ("f  6\n").toList, newline]

/-- A log with a best K-mer row but no `Read alignment summary` section. -/
def logBnoAlign : List PyStr :=
  [kmerHeaderW, ("9 8 7 6 best\n").toList]

/-- C1 counterexample: two invocations whose second run has the identical
log (`logBnoAlign`, which has a best K-mer but no alignment-summary
section) emit DIFFERENT records for that run, because its record reuses
`alignment_summary_list` from the first run's log, which differs between
the invocations.  So the record appended for a run does not depend only on
that run's own log content and folder name. -/
theorem c1_counterexample :
    ([((("A").toList), logA1), ((("B").toList), logBnoAlign)]
        : List (PyStr × List PyStr)).get? 1 =
      ([((("A").toList), logA2), ((("B").toList), logBnoAlign)]
        : List (PyStr × List PyStr)).get? 1 ∧
    (assemblies_summary [((("A").toList), logA1), ((("B").toList), logBnoAlign)]).map
        (fun s => s.get? 1) ≠
      (assemblies_summary [((("A").toList), logA2), ((("B").toList), logBnoAlign)]).map
        (fun s => s.get? 1) :=
  ⟨rfl, by decide⟩

/-- A log like `logBnoAlign` but with its own 6-value alignment summary. -/
def logBfull : List PyStr :=
  [kmerHeaderW, ("9 8 7 6 best\n").toList, alignHeaderW,
   ("u  11\n").toList, ("v  12\n").toList, ("w  13\n").toList,
   ("x  14\n").toList, ("y  15\n").toList, ("z  16\n").toList, newline]

def runsW1 : List (PyStr × List PyStr) := [((("A").toList), logA1), ((("B").toList), logBfull)]

def runsW2 : List (PyStr × List PyStr) := [((("A").toList), logA2), ((("B").toList), logBfull)]

def slotsW1 : List (Option AssemblyRecord) := (assemblies_summary runsW1).getD []

def slotsW2 : List (Option AssemblyRecord) := (assemblies_summary runsW2).getD []

theorem c1_amended_witness : slotsW1.get? 1 = slotsW2.get? 1 :=
  c1_amended 1 runsW1 runsW2 (("B").toList) logBfull slotsW1 slotsW2 rfl rfl
    ⟨tokenizeLine (("9 8 7 6 best\n").toList),
     [("11").toList, ("12").toList, ("13").toList,
      ("14").toList, ("15").toList, ("16").toList], rfl⟩
    rfl rfl
